import Mathlib

/-!
Verification development for the remove-image-bg compositing pipeline.

The definitions below are a shallow embedding of the client-side canvas
pipeline (`applyBackgroundEffect` and its helpers), of the background-removal
worker message protocol, of the download-name convention, and of the PNG
encoding step. Canvas pixels are RGBA8 values; exact rational arithmetic with
an explicit final rounding models the platform's 8-bit storage of composite
results. The browser's Gaussian blur filter is an external platform primitive
and is passed in as a function parameter.
-/

namespace RemoveImageBg

/-- One RGBA pixel as stored in a canvas buffer; each channel holds 0..255. -/
@[ext]
structure Pixel where
  r : ℕ
  g : ℕ
  b : ℕ
  a : ℕ
deriving DecidableEq

/-- A drawing surface: the pixel stored at each (x, y) coordinate. -/
abbrev Surface := ℕ → ℕ → Pixel

/-- A decoded raster image: dimensions plus pixel data. -/
structure Image where
  width : ℕ
  height : ℕ
  data : Surface

/-- A fully transparent pixel, the state after clearing a canvas. -/
def transparent : Pixel := ⟨0, 0, 0, 0⟩

/-- The color hex ffffff, used for checker tiles and as the default fill. -/
def whitePixel : Pixel := ⟨255, 255, 255, 255⟩

/-- The checkerboard off-white tone, hex F5F7FA. -/
def checkerGray : Pixel := ⟨245, 247, 250, 255⟩

/-- Rounding of an exact rational channel value to the stored 8-bit integer
(round half up; the values arising here are never exact halves). -/
def roundQ (q : ℚ) : ℕ := (Int.floor (q + 1 / 2)).toNat

/-- The canvas compositing modes used by the pipeline
(`globalCompositeOperation` values). -/
inductive CompositeOp where
  | sourceOver
  | destinationOut
  | destinationIn
deriving DecidableEq

/-- Per-pixel compositing of a source pixel over/against a destination pixel,
with straight-alpha inputs and outputs, following the canvas model. -/
def compositePixel : CompositeOp → Pixel → Pixel → Pixel
  | .sourceOver, s, d =>
      let sa : ℚ := s.a
      let da : ℚ := d.a
      let outA : ℚ := sa + da * (255 - sa) / 255
      if outA = 0 then transparent
      else
        ⟨roundQ (((s.r : ℚ) * sa + (d.r : ℚ) * da * (255 - sa) / 255) / outA),
         roundQ (((s.g : ℚ) * sa + (d.g : ℚ) * da * (255 - sa) / 255) / outA),
         roundQ (((s.b : ℚ) * sa + (d.b : ℚ) * da * (255 - sa) / 255) / outA),
         roundQ outA⟩
  | .destinationOut, s, d =>
      let outA : ℚ := (d.a : ℚ) * (255 - (s.a : ℚ)) / 255
      if outA = 0 then transparent else ⟨d.r, d.g, d.b, roundQ outA⟩
  | .destinationIn, s, d =>
      let outA : ℚ := (d.a : ℚ) * (s.a : ℚ) / 255
      if outA = 0 then transparent else ⟨d.r, d.g, d.b, roundQ outA⟩

/-- `ctx.drawImage(img, ox, oy)` under compositing mode `op` on a canvas of
size `cw × ch`: pixels outside the drawn image composite a transparent
source (this is what lets `destinationIn` clear everything off the mask). -/
def drawImageAt (op : CompositeOp) (img : Image) (ox oy : ℤ) (cw ch : ℕ)
    (dst : Surface) : Surface :=
  fun px py =>
    if px < cw ∧ py < ch then
      let sx : ℤ := (px : ℤ) - ox
      let sy : ℤ := (py : ℤ) - oy
      let sp : Pixel :=
        if 0 ≤ sx ∧ sx < (img.width : ℤ) ∧ 0 ≤ sy ∧ sy < (img.height : ℤ) then
          img.data sx.toNat sy.toNat
        else transparent
      compositePixel op sp (dst px py)
    else dst px py

/-- `ctx.fillRect(x, y, w, h)` with fill color `c`, clipped to the canvas. -/
def fillRect (x y w h : ℕ) (c : Pixel) (cw ch : ℕ) (s : Surface) : Surface :=
  fun px py =>
    if px < cw ∧ py < ch ∧ x ≤ px ∧ px < x + w ∧ y ≤ py ∧ py < y + h then c
    else s px py

/-- `ctx.clearRect(x, y, w, h)`: resets the rectangle to transparent. -/
def clearRect (x y w h : ℕ) (s : Surface) : Surface :=
  fun px py =>
    if x ≤ px ∧ px < x + w ∧ y ≤ py ∧ py < y + h then transparent else s px py

/-- The fill color chosen for the checker tile whose top-left corner is
(x, y): `(x + y) % (size * 2) === 0 ? '#FFFFFF' : '#F5F7FA'` with size 32. -/
def checkerTile (x y : ℕ) : Pixel :=
  if (x + y) % 64 = 0 then whitePixel else checkerGray

/-- The inner checkerboard loop: `for (let y = 0; y < h; y += 32)` drawing the
32 × 32 tile at column `x`, row `32 * j`, applied for `j` rows in ascending
order (a later row is written after an earlier one). -/
def checkerRows (x cw ch : ℕ) : ℕ → Surface → Surface
  | 0, s => s
  | j + 1, s =>
      fillRect x (32 * j) 32 32 (checkerTile x (32 * j)) cw ch
        (checkerRows x cw ch j s)

/-- The outer checkerboard loop: `for (let x = 0; x < w; x += 32)`, each
iteration running the full inner row loop for column `32 * i`. -/
def checkerCols (cw ch : ℕ) : ℕ → Surface → Surface
  | 0, s => s
  | i + 1, s =>
      checkerRows (32 * i) cw ch ((ch + 31) / 32) (checkerCols cw ch i s)

/-- The checkerboard transparency indicator drawn when no background effect is
enabled: both tile loops run over the whole canvas. -/
def drawCheckerboard (cw ch : ℕ) (s : Surface) : Surface :=
  checkerCols cw ch ((cw + 31) / 32) s

/-- The black-and-white pass over a `cw × ch` canvas: each in-range pixel's
R, G, B channels are replaced by `(R + G + B) / 3`, stored back through the
8-bit clamp; alpha is not written. -/
def toGrayscale (cw ch : ℕ) (s : Surface) : Surface :=
  fun px py =>
    if px < cw ∧ py < ch then
      let p := s px py
      let avg := roundQ (((p.r : ℚ) + (p.g : ℚ) + (p.b : ℚ)) / 3)
      ⟨avg, avg, avg, p.a⟩
    else s px py

/-- The optional per-effect option bag (`Effect['options']` in the source). -/
structure EffectOptions where
  color : Option Pixel
  blur : Option ℕ
  borderColor : Option Pixel
  borderSize : Option ℕ
  useOriginal : Option Bool

/-- One effect toggle: an enabled flag plus optional options. -/
structure Effect where
  enabled : Bool
  options : Option EffectOptions

/-- The full effect configuration record. -/
structure Effects where
  background : Effect
  border : Effect
  blur : Effect
  bw : Effect

/-- Border thickness: `Math.max(1, Math.floor(borderSize / 8))`. -/
def thickness (sizePx : ℕ) : ℕ := max 1 (sizePx / 8)

/-- The row of integer offsets `-t .. t` scanned by the offset loops. -/
def offsetRange (t : ℕ) : List ℤ :=
  (List.range (2 * t + 1)).map fun (i : ℕ) => (i : ℤ) - (t : ℤ)

/-- The circular offsets collected for the border: all `(x, y)` with
`x * x + y * y <= thickness * thickness`, x outer loop, y inner loop. -/
def diskOffsets (t : ℕ) : List (ℤ × ℤ) :=
  (offsetRange t).foldr
    (fun x acc =>
      ((offsetRange t).filterMap fun y =>
        if x * x + y * y ≤ (t : ℤ) * (t : ℤ) then some (x, y) else none) ++ acc)
    []

/-- The border mask accumulator: starting from a fresh (transparent) canvas of
size `mw × mh`, stamp the foreground once per disk offset, at position
`(dx + t, dy + t)`, with default source-over compositing. -/
def stampMask (foregroundImg : Image) (t mw mh : ℕ) : Surface :=
  (diskOffsets t).foldl
    (fun acc p =>
      drawImageAt .sourceOver foregroundImg (p.1 + (t : ℤ)) (p.2 + (t : ℤ))
        mw mh acc)
    (fun _ _ => transparent)

/-- Background stage: checkerboard when the background effect is disabled,
else the original image when `useOriginal`, else a solid fill with the
configured color (default ffffff). -/
def backgroundStage (originalImg : Image) (eff : Effects) (cw ch : ℕ)
    (s : Surface) : Surface :=
  if eff.background.enabled = false then
    drawCheckerboard cw ch s
  else if (eff.background.options.bind fun o => o.useOriginal).getD false then
    drawImageAt .sourceOver originalImg 0 0 cw ch s
  else
    fillRect 0 0 cw ch ((eff.background.options.bind fun o => o.color).getD whitePixel)
      cw ch s

/-- Blur stage body: snapshot the current canvas, draw its blurred copy back
over the canvas, then punch a foreground-shaped hole with destination-out. -/
def blurStage (blurFn : ℕ → ℕ → ℕ → Surface → Surface) (foregroundImg : Image)
    (radius cw ch : ℕ) (s : Surface) : Surface :=
  let snap := drawImageAt .sourceOver ⟨cw, ch, s⟩ 0 0 cw ch fun _ _ => transparent
  let blurred := drawImageAt .sourceOver ⟨cw, ch, blurFn radius cw ch snap⟩ 0 0 cw ch s
  let fgSnap := drawImageAt .sourceOver foregroundImg 0 0 cw ch
    (clearRect 0 0 cw ch snap)
  drawImageAt .destinationOut ⟨cw, ch, fgSnap⟩ 0 0 cw ch blurred

/-- Border stage body: build the dilated mask, colorize it by filling a padded
temp canvas and cutting it to the mask with destination-in, blit the colored
ring at `(-thickness, -thickness)`, then re-blit the foreground on top. -/
def borderStage (foregroundImg : Image) (bColor : Pixel) (bSize cw ch : ℕ)
    (s : Surface) : Surface :=
  let t := thickness bSize
  let tw := cw + t * 2
  let th := ch + t * 2
  let mask : Image := ⟨tw, th, stampMask foregroundImg t tw th⟩
  let temp1 := fillRect 0 0 tw th bColor tw th
    (clearRect 0 0 tw th fun _ _ => transparent)
  let temp2 := drawImageAt .destinationIn mask 0 0 tw th temp1
  let s1 := drawImageAt .sourceOver ⟨tw, th, temp2⟩ (-(t : ℤ)) (-(t : ℤ)) cw ch s
  drawImageAt .sourceOver foregroundImg 0 0 cw ch s1

/-- The whole render, translated line by line from `applyBackgroundEffect`:
the canvas is sized to the original image and cleared; the background branch
runs first; the blur, black-and-white and border blocks each run under their
own enabled flag; the foreground is drawn between the black-and-white and
border blocks. `blurFn` is the platform's CSS blur filter, a parameter. -/
def applyBackgroundEffect (blurFn : ℕ → ℕ → ℕ → Surface → Surface)
    (originalImg foregroundImg : Image) (currentEffects : Effects) : Image :=
  let cw := originalImg.width
  let ch := originalImg.height
  let s0 : Surface := clearRect 0 0 cw ch fun _ _ => transparent
  let s1 :=
    if currentEffects.background.enabled = false then
      drawCheckerboard cw ch s0
    else if (currentEffects.background.options.bind fun o => o.useOriginal).getD false then
      drawImageAt .sourceOver originalImg 0 0 cw ch s0
    else
      fillRect 0 0 cw ch
        ((currentEffects.background.options.bind fun o => o.color).getD whitePixel)
        cw ch s0
  let s2 :=
    if currentEffects.blur.enabled then
      let snap := drawImageAt .sourceOver ⟨cw, ch, s1⟩ 0 0 cw ch fun _ _ => transparent
      let blurred := drawImageAt .sourceOver
        ⟨cw, ch, blurFn ((currentEffects.blur.options.bind fun o => o.blur).getD 10) cw ch snap⟩
        0 0 cw ch s1
      let fgSnap := drawImageAt .sourceOver foregroundImg 0 0 cw ch
        (clearRect 0 0 cw ch snap)
      drawImageAt .destinationOut ⟨cw, ch, fgSnap⟩ 0 0 cw ch blurred
    else s1
  let s3 := if currentEffects.bw.enabled then toGrayscale cw ch s2 else s2
  let s4 := drawImageAt .sourceOver foregroundImg 0 0 cw ch s3
  let s5 :=
    if currentEffects.border.enabled then
      let bSize := (currentEffects.border.options.bind fun o => o.borderSize).getD 40
      let bColor := (currentEffects.border.options.bind fun o => o.borderColor).getD whitePixel
      let t := thickness bSize
      let tw := cw + t * 2
      let th := ch + t * 2
      let mask : Image := ⟨tw, th, stampMask foregroundImg t tw th⟩
      let temp1 := fillRect 0 0 tw th bColor tw th
        (clearRect 0 0 tw th fun _ _ => transparent)
      let temp2 := drawImageAt .destinationIn mask 0 0 tw th temp1
      let s4a := drawImageAt .sourceOver ⟨tw, th, temp2⟩ (-(t : ℤ)) (-(t : ℤ)) cw ch s4
      drawImageAt .sourceOver foregroundImg 0 0 cw ch s4a
    else s4
  ⟨cw, ch, s5⟩

/-- The pipeline written as the ordered composition of the named stages:
background, then blur (when enabled), then black-and-white (when enabled),
then the foreground draw, then border (when enabled). -/
def stagePipeline (blurFn : ℕ → ℕ → ℕ → Surface → Surface)
    (originalImg foregroundImg : Image) (eff : Effects) : Image :=
  let cw := originalImg.width
  let ch := originalImg.height
  let s0 : Surface := clearRect 0 0 cw ch fun _ _ => transparent
  let s1 := backgroundStage originalImg eff cw ch s0
  let s2 :=
    if eff.blur.enabled then
      blurStage blurFn foregroundImg
        ((eff.blur.options.bind fun o => o.blur).getD 10) cw ch s1
    else s1
  let s3 := if eff.bw.enabled then toGrayscale cw ch s2 else s2
  let s4 := drawImageAt .sourceOver foregroundImg 0 0 cw ch s3
  let s5 :=
    if eff.border.enabled then
      borderStage foregroundImg
        ((eff.border.options.bind fun o => o.borderColor).getD whitePixel)
        ((eff.border.options.bind fun o => o.borderSize).getD 40) cw ch s4
    else s4
  ⟨cw, ch, s5⟩

/-- The checkerboard color stated pixelwise, following the spec wording: the
pixel belongs to the tile with top-left corner (32 * (px / 32), 32 * (py / 32));
that tile is white exactly when the corner coordinates sum to 0 mod 64. -/
def specCheckerPixel (px py : ℕ) : Pixel :=
  checkerTile (32 * (px / 32)) (32 * (py / 32))

/-- Whether dilation offset `(dx, dy)` makes the foreground cover mask pixel
`(px, py)`: the stamp drawn at `(dx + t, dy + t)` reads the foreground at
`(px - (dx + t), py - (dy + t))`, which must be in range and have positive
alpha. -/
def dilatedAlphaHit (fg : Image) (t px py : ℕ) (dx dy : ℤ) : Prop :=
  0 ≤ (px : ℤ) - (dx + (t : ℤ)) ∧ (px : ℤ) - (dx + (t : ℤ)) < (fg.width : ℤ) ∧
  0 ≤ (py : ℤ) - (dy + (t : ℤ)) ∧ (py : ℤ) - (dy + (t : ℤ)) < (fg.height : ℤ) ∧
  0 < (fg.data ((px : ℤ) - (dx + (t : ℤ))).toNat ((py : ℤ) - (dy + (t : ℤ))).toNat).a

/-- A message posted by the background-removal worker. -/
inductive WorkerMsg where
  | progress (value : ℤ)
  | complete (success : Bool)
deriving DecidableEq

/-- The progress percentages of a message sequence, in emission order. -/
def progressValues (l : List WorkerMsg) : List ℤ :=
  l.filterMap fun m =>
    match m with
    | .progress v => some v
    | .complete _ => none

/-- Whether a message is a terminal complete message. -/
def isCompleteMsg : WorkerMsg → Bool
  | .progress _ => false
  | .complete _ => true

/-- How many complete messages a sequence contains. -/
def completeCount (l : List WorkerMsg) : ℕ := l.countP isCompleteMsg

/-- The sequence contains exactly one complete message and it comes last. -/
def oneTerminalComplete (l : List WorkerMsg) : Prop :=
  completeCount l = 1 ∧ ∃ ok, l.getLast? = some (.complete ok)

/-- Whether a percentage sequence is monotonically non-decreasing. -/
def nondecreasingB : List ℤ → Bool
  | [] => true
  | [_] => true
  | a :: b :: rest => decide (a ≤ b) && nondecreasingB (b :: rest)

/-- The messages posted by `src/app/worker.ts` for one request: progress 10,
then (when the fetch succeeds) progress 30, then (when removal succeeds)
progress 100 and a success complete; any thrown error is caught and reported
as a single failure complete. -/
def workerMessages (fetchOk removeOk : Bool) : List WorkerMsg :=
  .progress 10 ::
    (if fetchOk then
      .progress 30 ::
        (if removeOk then [.progress 100, .complete true] else [.complete false])
    else [.complete false])

/-- `Math.round` on an exact rational: floor of the value plus one half. -/
def jsRound (q : ℚ) : ℤ := Int.floor (q + 1 / 2)

/-- The jittered percentage computed by the snapshot worker's progress
callback: `Math.min(95, Math.max(15, Math.round(15 + current / total * 80 +
jitter)))`, where `jitter = Math.random() * 2 - 1`. -/
def part005Progress (current total jitter : ℚ) : ℤ :=
  min 95 (max 15 (jsRound (15 + current / total * 80 + jitter)))

/-- The messages posted by the snapshot worker (`src/unnamed/part_005`):
progress 5, then (when the fetch succeeds) progress 15, one jittered progress
message per model callback invocation, and a terminal complete message. -/
def part005Messages (fetchOk : Bool) (callbacks : List (ℚ × ℚ × ℚ))
    (removeOk : Bool) : List WorkerMsg :=
  .progress 5 ::
    (if fetchOk then
      .progress 15 ::
        ((callbacks.map fun c => .progress (part005Progress c.1 c.2.1 c.2.2)) ++
          (if removeOk then [.complete true] else [.complete false]))
    else [.complete false])

/-- The download attribute of the artifact link: when an original filename is
known (a non-empty string), `split('.')[0]` of it followed by the literal
suffix, else the generic default name. -/
def downloadName (originalFilename : Option String) : String :=
  match originalFilename with
  | none => "processed-image.png"
  | some nm =>
    if nm = "" then "processed-image.png"
    else String.mk (nm.toList.takeWhile fun c => c != '.') ++ "_removeimagebg.png"

/-- The state of the promise wrapped around `canvas.toBlob`: the executor
calls `resolve` only when a non-null blob is produced and never rejects, so
the promise either resolves with a blob or stays pending forever. -/
inductive PngEncodeState (Blob : Type) where
  | resolved (blob : Blob)
  | pending
deriving DecidableEq

/-- The encoding promise outcome as a function of what `toBlob` produced. -/
def encodePromise {Blob : Type} (toBlobResult : Option Blob) : PngEncodeState Blob :=
  match toBlobResult with
  | some blob => .resolved blob
  | none => .pending

/-- The object URL handed back by the render: produced exactly when the
encoding promise resolved. -/
def renderUrl {Blob Url : Type} (createObjectURL : Blob → Url)
    (toBlobResult : Option Blob) : Option Url :=
  match encodePromise toBlobResult with
  | .resolved blob => some (createObjectURL blob)
  | .pending => none

/-! ### Basic arithmetic lemmas about the 8-bit rounding -/

lemma roundQ_natCast (n : ℕ) : roundQ (n : ℚ) = n := by
  unfold roundQ
  have h : ((n : ℚ) + 1 / 2) = (1 / 2 : ℚ) + (n : ℤ) := by push_cast; ring
  rw [h, Int.floor_add_int]
  norm_num

lemma roundQ_third (n : ℕ) :
    3 * roundQ ((n : ℚ) / 3) ≤ n + 1 ∧ n ≤ 3 * roundQ ((n : ℚ) / 3) + 1 := by
  unfold roundQ
  have h1 : ((Int.floor ((n : ℚ) / 3 + 1 / 2) : ℤ) : ℚ) ≤ (n : ℚ) / 3 + 1 / 2 :=
    Int.floor_le _
  have h2 : (n : ℚ) / 3 + 1 / 2 < Int.floor ((n : ℚ) / 3 + 1 / 2) + 1 :=
    Int.lt_floor_add_one _
  have h0 : (0 : ℤ) ≤ Int.floor ((n : ℚ) / 3 + 1 / 2) := by
    rw [Int.le_floor]
    push_cast
    positivity
  have h3 : (3 * (Int.floor ((n : ℚ) / 3 + 1 / 2) : ℚ)) < (n : ℚ) + 2 := by linarith
  have h4 : (n : ℚ) < 3 * (Int.floor ((n : ℚ) / 3 + 1 / 2) : ℚ) + 2 := by linarith
  have h3i : 3 * Int.floor ((n : ℚ) / 3 + 1 / 2) < (n : ℤ) + 2 := by exact_mod_cast h3
  have h4i : (n : ℤ) < 3 * Int.floor ((n : ℚ) / 3 + 1 / 2) + 2 := by exact_mod_cast h4
  omega

/-- C5: the black-and-white pass writes the same value into R, G and B, keeps
alpha, and that value is the arithmetic mean (R + G + B) / 3 rounded to the
nearest integer (characterized by `|3 * value - (R + G + B)| ≤ 1`; an exact
tie is impossible since an integer sum is never 1.5 away from a multiple
of 3). -/
theorem grayscale_mean_nearest (cw ch : ℕ) (s : Surface) (px py : ℕ)
    (hx : px < cw) (hy : py < ch) :
    (toGrayscale cw ch s px py).r = (toGrayscale cw ch s px py).g ∧
    (toGrayscale cw ch s px py).g = (toGrayscale cw ch s px py).b ∧
    (toGrayscale cw ch s px py).a = (s px py).a ∧
    3 * (toGrayscale cw ch s px py).r ≤ (s px py).r + (s px py).g + (s px py).b + 1 ∧
    (s px py).r + (s px py).g + (s px py).b ≤ 3 * (toGrayscale cw ch s px py).r + 1 := by
  have hmem : px < cw ∧ py < ch := ⟨hx, hy⟩
  simp only [toGrayscale, if_pos hmem]
  refine ⟨trivial, trivial, trivial, ?_, ?_⟩
  · have h := (roundQ_third ((s px py).r + (s px py).g + (s px py).b)).1
    have hc : (((s px py).r + (s px py).g + (s px py).b : ℕ) : ℚ) =
        ((s px py).r : ℚ) + ((s px py).g : ℚ) + ((s px py).b : ℚ) := by push_cast; ring
    rw [hc] at h
    exact h
  · have h := (roundQ_third ((s px py).r + (s px py).g + (s px py).b)).2
    have hc : (((s px py).r + (s px py).g + (s px py).b : ℕ) : ℚ) =
        ((s px py).r : ℚ) + ((s px py).g : ℚ) + ((s px py).b : ℚ) := by push_cast; ring
    rw [hc] at h
    exact h

/-- C5 witness: the grayscale pass at a concrete pixel of a concrete surface. -/
theorem grayscale_mean_nearest_witness :
    (toGrayscale 1 1 (fun _ _ => ⟨10, 20, 31, 7⟩) 0 0).a =
      ((fun (_ _ : ℕ) => (⟨10, 20, 31, 7⟩ : Pixel)) 0 0).a :=
  (grayscale_mean_nearest 1 1 (fun _ _ => ⟨10, 20, 31, 7⟩) 0 0 (by decide) (by decide)).2.2.1

/-- C6: applying the black-and-white pass twice gives the same surface as
applying it once: after one pass R = G = B, and the mean of three equal
channels rounds back to that channel. -/
theorem grayscale_idempotent (cw ch : ℕ) (s : Surface) :
    toGrayscale cw ch (toGrayscale cw ch s) = toGrayscale cw ch s := by
  funext px py
  by_cases h : px < cw ∧ py < ch
  · simp only [toGrayscale, if_pos h]
    have hm : ∀ m : ℕ, roundQ (((m : ℚ) + (m : ℚ) + (m : ℚ)) / 3) = m := by
      intro m
      have : ((m : ℚ) + (m : ℚ) + (m : ℚ)) / 3 = (m : ℚ) := by ring
      rw [this, roundQ_natCast]
    simp [hm]
  · simp only [toGrayscale, if_neg h]

/-- C7: border thickness `max(1, floor(sizePx / 8))` is non-decreasing, and
takes the values 1, 5 and 25 at 0, 40 and 200. -/
theorem thickness_monotone_values :
    (∀ a b : ℕ, a ≤ b → thickness a ≤ thickness b) ∧
    thickness 0 = 1 ∧ thickness 40 = 5 ∧ thickness 200 = 25 :=
  ⟨fun _ _ h => max_le_max le_rfl (Nat.div_le_div_right h), by decide, by decide,
    by decide⟩

/-- C7 witness: monotonicity applied at 3 ≤ 45. -/
theorem thickness_monotone_values_witness : thickness 3 ≤ thickness 45 :=
  thickness_monotone_values.1 3 45 (by decide)

/-- C10: the PNG encoding promise pends exactly on a null blob, resolves
exactly with the produced blob, the outcome type has no error value at all,
and an output URL exists exactly when a blob was produced. -/
theorem encode_no_error_outcome {Blob Url : Type} (createObjectURL : Blob → Url)
    (toBlobResult : Option Blob) :
    (encodePromise toBlobResult = PngEncodeState.pending ↔ toBlobResult = none) ∧
    (∀ blob, encodePromise toBlobResult = PngEncodeState.resolved blob ↔
      toBlobResult = some blob) ∧
    (∀ st : PngEncodeState Blob, (∃ blob, st = PngEncodeState.resolved blob) ∨
      st = PngEncodeState.pending) ∧
    ((renderUrl createObjectURL toBlobResult).isSome ↔ toBlobResult.isSome) := by
  refine ⟨?_, ?_, ?_, ?_⟩
  · cases toBlobResult <;> simp [encodePromise]
  · intro blob
    cases toBlobResult <;> simp [encodePromise]
  · intro st
    cases st with
    | resolved blob => exact Or.inl ⟨blob, rfl⟩
    | pending => exact Or.inr rfl
  · cases toBlobResult <;> simp [renderUrl, encodePromise]

/-! ### Checkerboard loop characterization -/

lemma checkerRows_apply (x cw ch : ℕ) :
    ∀ (j : ℕ) (s : Surface) (px py : ℕ),
      checkerRows x cw ch j s px py =
        if px < cw ∧ py < ch ∧ x ≤ px ∧ px < x + 32 ∧ py < 32 * j then
          checkerTile x (32 * (py / 32))
        else s px py := by
  intro j
  induction j with
  | zero =>
      intro s px py
      rw [show checkerRows x cw ch 0 s = s from rfl, if_neg]
      omega
  | succ j ih =>
      intro s px py
      rw [show checkerRows x cw ch (j + 1) s =
            fillRect x (32 * j) 32 32 (checkerTile x (32 * j)) cw ch
              (checkerRows x cw ch j s) from rfl]
      simp only [fillRect]
      rw [ih]
      split_ifs
      all_goals try rfl
      all_goals try omega
      all_goals (congr 1 <;> omega)

lemma checkerCols_apply (cw ch : ℕ) :
    ∀ (i : ℕ) (s : Surface) (px py : ℕ),
      checkerCols cw ch i s px py =
        if px < cw ∧ py < ch ∧ px < 32 * i ∧ py < 32 * ((ch + 31) / 32) then
          checkerTile (32 * (px / 32)) (32 * (py / 32))
        else s px py := by
  intro i
  induction i with
  | zero =>
      intro s px py
      rw [show checkerCols cw ch 0 s = s from rfl, if_neg]
      omega
  | succ i ih =>
      intro s px py
      rw [show checkerCols cw ch (i + 1) s =
            checkerRows (32 * i) cw ch ((ch + 31) / 32) (checkerCols cw ch i s)
              from rfl]
      rw [checkerRows_apply, ih]
      split_ifs
      all_goals try rfl
      all_goals try omega
      all_goals (congr 1 <;> omega)

lemma drawCheckerboard_apply (cw ch : ℕ) (s : Surface) (px py : ℕ)
    (hx : px < cw) (hy : py < ch) :
    drawCheckerboard cw ch s px py = specCheckerPixel px py := by
  unfold drawCheckerboard specCheckerPixel
  rw [checkerCols_apply, if_pos ⟨hx, hy, by omega, by omega⟩]

/-! ### Compositing lemmas -/

lemma compositePixel_sourceOver_opaque (s d : Pixel) (h : s.a = 255) :
    compositePixel .sourceOver s d = s := by
  unfold compositePixel
  simp only [h]
  norm_num
  have h255 : roundQ (255 : ℚ) = 255 := by simpa using roundQ_natCast 255
  refine Pixel.ext ?_ ?_ ?_ ?_ <;> simp [roundQ_natCast, h, h255]

/-- C1: the render equals the ordered composition of the named stages:
clear, background, blur when its flag is set, black-and-white when its flag is
set, the foreground draw, then border when its flag is set. -/
theorem render_fixed_stage_order (blurFn : ℕ → ℕ → ℕ → Surface → Surface)
    (originalImg foregroundImg : Image) (eff : Effects)
    (hW : foregroundImg.width = originalImg.width)
    (hH : foregroundImg.height = originalImg.height) :
    applyBackgroundEffect blurFn originalImg foregroundImg eff =
      stagePipeline blurFn originalImg foregroundImg eff := rfl

/-- C2: with every effect disabled, each rendered pixel is the foreground
pixel source-over composited onto the checkerboard pixel given by the tiling
formula (tile corner (32⌊px/32⌋, 32⌊py/32⌋), white exactly when the corner
coordinates sum to 0 mod 64). -/
theorem render_all_disabled_checkerboard (blurFn : ℕ → ℕ → ℕ → Surface → Surface)
    (originalImg foregroundImg : Image) (eff : Effects)
    (hbg : eff.background.enabled = false) (hblur : eff.blur.enabled = false)
    (hbw : eff.bw.enabled = false) (hborder : eff.border.enabled = false)
    (hW : foregroundImg.width = originalImg.width)
    (hH : foregroundImg.height = originalImg.height)
    (px py : ℕ) (hx : px < originalImg.width) (hy : py < originalImg.height) :
    (applyBackgroundEffect blurFn originalImg foregroundImg eff).data px py =
      compositePixel .sourceOver (foregroundImg.data px py) (specCheckerPixel px py) := by
  have hxf : px < foregroundImg.width := by rw [hW]; exact hx
  have hyf : py < foregroundImg.height := by rw [hH]; exact hy
  simp only [applyBackgroundEffect, hbg, hblur, hbw, hborder, if_true,
    Bool.false_eq_true, if_false, eq_self_iff_true]
  simp only [drawImageAt]
  rw [if_pos ⟨hx, hy⟩, if_pos ⟨by omega, by omega, by omega, by omega⟩]
  have htn : ∀ n : ℕ, ((n : ℤ) - 0).toNat = n := by intro n; omega
  rw [htn, htn, drawCheckerboard_apply _ _ _ _ _ hx hy]

/-- C4: when the border effect is enabled, the foreground is re-drawn
source-over as the very last step, so every pixel where the foreground is
fully opaque ends up exactly equal to the foreground pixel. -/
theorem border_never_covers_subject (blurFn : ℕ → ℕ → ℕ → Surface → Surface)
    (originalImg foregroundImg : Image) (eff : Effects)
    (hb : eff.border.enabled = true)
    (hW : foregroundImg.width = originalImg.width)
    (hH : foregroundImg.height = originalImg.height)
    (px py : ℕ) (hx : px < originalImg.width) (hy : py < originalImg.height)
    (ha : (foregroundImg.data px py).a = 255) :
    (applyBackgroundEffect blurFn originalImg foregroundImg eff).data px py =
      foregroundImg.data px py := by
  have hxf : px < foregroundImg.width := by rw [hW]; exact hx
  have hyf : py < foregroundImg.height := by rw [hH]; exact hy
  simp only [applyBackgroundEffect, hb, if_true]
  simp only [drawImageAt]
  rw [if_pos ⟨hx, hy⟩, if_pos ⟨by omega, by omega, by omega, by omega⟩]
  have htn : ∀ n : ℕ, ((n : ℤ) - 0).toNat = n := by intro n; omega
  rw [htn, htn]
  exact compositePixel_sourceOver_opaque _ _ ha

/-! ### Disk offsets and mask dilation -/

lemma mem_offsetRange (t : ℕ) (z : ℤ) :
    z ∈ offsetRange t ↔ -(t : ℤ) ≤ z ∧ z ≤ (t : ℤ) := by
  constructor
  · intro hz
    obtain ⟨i, hi, hiz⟩ := List.mem_map.1 hz
    rw [List.mem_range] at hi
    have hiz2 : (i : ℤ) - (t : ℤ) = z := hiz
    omega
  · intro hz
    refine List.mem_map.2 ⟨(z + t).toNat, ?_, ?_⟩
    · rw [List.mem_range]
      omega
    · show ((z + (t : ℤ)).toNat : ℤ) - (t : ℤ) = z
      omega

lemma mem_foldr_append {α β : Type} (f : α → List β) (l : List α) (b : β) :
    b ∈ l.foldr (fun x acc => f x ++ acc) [] ↔ ∃ x ∈ l, b ∈ f x := by
  induction l with
  | nil => simp
  | cons a t ih => simp [List.mem_append, ih]

lemma mem_diskOffsets (t : ℕ) (q : ℤ × ℤ) :
    q ∈ diskOffsets t ↔ q.1 * q.1 + q.2 * q.2 ≤ (t : ℤ) * (t : ℤ) := by
  unfold diskOffsets
  rw [mem_foldr_append]
  constructor
  · rintro ⟨x, _, hq⟩
    rw [List.mem_filterMap] at hq
    obtain ⟨y, _, hsome⟩ := hq
    split_ifs at hsome with hc
    obtain rfl := Option.some.inj hsome
    exact hc
  · intro hq
    have ht : (0 : ℤ) ≤ (t : ℤ) := Int.ofNat_nonneg t
    have hsq1 : q.1 ^ 2 ≤ (t : ℤ) ^ 2 := by nlinarith [mul_self_nonneg q.2]
    have hsq2 : q.2 ^ 2 ≤ (t : ℤ) ^ 2 := by nlinarith [mul_self_nonneg q.1]
    have h1 := abs_le_of_sq_le_sq' hsq1 ht
    have h2 := abs_le_of_sq_le_sq' hsq2 ht
    refine ⟨q.1, (mem_offsetRange t q.1).2 h1, ?_⟩
    rw [List.mem_filterMap]
    refine ⟨q.2, (mem_offsetRange t q.2).2 h2, ?_⟩
    rw [if_pos hq]

lemma roundQ_pos_of_one_le {q : ℚ} (h : 1 ≤ q) : 0 < roundQ q := by
  unfold roundQ
  have h1 : (1 : ℤ) ≤ Int.floor (q + 1 / 2) := by
    rw [Int.le_floor]
    push_cast
    linarith
  omega

lemma compositePixel_sourceOver_alpha_pos (s d : Pixel) (hs : s.a ≤ 255) :
    0 < (compositePixel .sourceOver s d).a ↔ 0 < s.a ∨ 0 < d.a := by
  have h255 : (s.a : ℚ) ≤ 255 := by exact_mod_cast hs
  have hsa : (0 : ℚ) ≤ (s.a : ℚ) := by positivity
  have hda : (0 : ℚ) ≤ (d.a : ℚ) := by positivity
  have hterm : (0 : ℚ) ≤ (d.a : ℚ) * (255 - (s.a : ℚ)) / 255 :=
    div_nonneg (mul_nonneg hda (by linarith)) (by norm_num)
  simp only [compositePixel]
  split_ifs with h0
  · have hsa0 : (s.a : ℚ) = 0 := by linarith
    have hsn : s.a = 0 := by exact_mod_cast hsa0
    rw [hsa0] at h0
    have hdn : d.a = 0 := by
      have hx : (0 : ℚ) + (d.a : ℚ) * (255 - 0) / 255 = (d.a : ℚ) := by ring
      rw [hx] at h0
      exact_mod_cast h0
    simp [transparent, hsn, hdn]
  · have hnotboth : ¬(s.a = 0 ∧ d.a = 0) := by
      rintro ⟨hs0, hd0⟩
      apply h0
      rw [hs0, hd0]
      norm_num
    have h1 : (1 : ℚ) ≤ (s.a : ℚ) + (d.a : ℚ) * (255 - (s.a : ℚ)) / 255 := by
      rcases Nat.eq_zero_or_pos s.a with hz | hp
      · have hd : 1 ≤ d.a := by omega
        have hd1 : (1 : ℚ) ≤ (d.a : ℚ) := by exact_mod_cast hd
        rw [hz]
        push_cast
        rw [show ((0 : ℚ) + (d.a : ℚ) * (255 - 0) / 255) = (d.a : ℚ) by ring]
        exact hd1
      · have hp1 : (1 : ℚ) ≤ (s.a : ℚ) := by exact_mod_cast hp
        linarith
    have hconc : 0 < s.a ∨ 0 < d.a := by omega
    exact iff_of_true (roundQ_pos_of_one_le h1) hconc

lemma drawImage_stamp_alpha (fg : Image) (hA : ∀ x y, (fg.data x y).a ≤ 255)
    (ox oy : ℤ) (mw mh : ℕ) (acc : Surface) (px py : ℕ)
    (hx : px < mw) (hy : py < mh) :
    0 < (drawImageAt .sourceOver fg ox oy mw mh acc px py).a ↔
      ((0 ≤ (px : ℤ) - ox ∧ (px : ℤ) - ox < (fg.width : ℤ) ∧
        0 ≤ (py : ℤ) - oy ∧ (py : ℤ) - oy < (fg.height : ℤ) ∧
        0 < (fg.data ((px : ℤ) - ox).toNat ((py : ℤ) - oy).toNat).a) ∨
       0 < (acc px py).a) := by
  simp only [drawImageAt]
  rw [if_pos ⟨hx, hy⟩]
  by_cases hin : 0 ≤ (px : ℤ) - ox ∧ (px : ℤ) - ox < (fg.width : ℤ) ∧
      0 ≤ (py : ℤ) - oy ∧ (py : ℤ) - oy < (fg.height : ℤ)
  · rw [if_pos hin, compositePixel_sourceOver_alpha_pos _ _ (hA _ _)]
    obtain ⟨h1, h2, h3, h4⟩ := hin
    constructor
    · rintro (h | h)
      · exact Or.inl ⟨h1, h2, h3, h4, h⟩
      · exact Or.inr h
    · rintro (⟨_, _, _, _, h⟩ | h)
      · exact Or.inl h
      · exact Or.inr h
  · rw [if_neg hin, compositePixel_sourceOver_alpha_pos _ _ (by norm_num [transparent])]
    simp only [transparent]
    constructor
    · rintro (h | h)
      · exact absurd h (by norm_num)
      · exact Or.inr h
    · rintro (⟨h1, h2, h3, h4, _⟩ | h)
      · exact absurd ⟨h1, h2, h3, h4⟩ hin
      · exact Or.inr h

lemma stampFold_alpha (fg : Image) (hA : ∀ x y, (fg.data x y).a ≤ 255)
    (t mw mh : ℕ) (px py : ℕ) (hx : px < mw) (hy : py < mh) :
    ∀ (l : List (ℤ × ℤ)) (acc : Surface),
      0 < ((l.foldl (fun s p =>
            drawImageAt .sourceOver fg (p.1 + (t : ℤ)) (p.2 + (t : ℤ)) mw mh s)
          acc) px py).a ↔
        ((∃ p ∈ l, dilatedAlphaHit fg t px py p.1 p.2) ∨ 0 < (acc px py).a) := by
  intro l
  induction l with
  | nil =>
      intro acc
      simp
  | cons q l ih =>
      intro acc
      rw [List.foldl_cons, ih, drawImage_stamp_alpha fg hA _ _ mw mh acc px py hx hy]
      constructor
      · rintro (⟨p, hp, hhit⟩ | (hq | hacc))
        · exact Or.inl ⟨p, List.mem_cons_of_mem _ hp, hhit⟩
        · exact Or.inl ⟨q, List.mem_cons_self q l, hq⟩
        · exact Or.inr hacc
      · rintro (⟨p, hp, hhit⟩ | hacc)
        · rcases List.mem_cons.1 hp with rfl | hp2
          · exact Or.inr (Or.inl hhit)
          · exact Or.inl ⟨p, hp2, hhit⟩
        · exact Or.inr (Or.inr hacc)

/-- C3: a pixel of the border mask accumulator is covered (has positive alpha)
exactly when some integer offset (dx, dy) of the filled disk
`dx² + dy² ≤ r²` places a covered foreground pixel there via the stamp drawn
at (dx + r, dy + r); moreover the generated offset list contains exactly the
disk. The accumulator dimensions carry the r-padding on each side. -/
theorem mask_is_disk_dilation (fg : Image) (hA : ∀ x y, (fg.data x y).a ≤ 255)
    (r : ℕ) (hr : 1 ≤ r) (px py : ℕ)
    (hx : px < fg.width + 2 * r) (hy : py < fg.height + 2 * r) :
    (0 < (stampMask fg r (fg.width + 2 * r) (fg.height + 2 * r) px py).a ↔
      ∃ dx dy : ℤ, dx * dx + dy * dy ≤ (r : ℤ) * (r : ℤ) ∧
        dilatedAlphaHit fg r px py dx dy) ∧
    (∀ dx dy : ℤ, ((dx, dy) ∈ diskOffsets r ↔
      dx * dx + dy * dy ≤ (r : ℤ) * (r : ℤ))) := by
  constructor
  · unfold stampMask
    rw [stampFold_alpha fg hA r _ _ px py hx hy]
    have hz : ((fun (_x _y : ℕ) => transparent) px py).a = 0 := rfl
    rw [hz]
    simp only [lt_self_iff_false, or_false]
    constructor
    · rintro ⟨p, hp, hhit⟩
      exact ⟨p.1, p.2, (mem_diskOffsets r p).1 hp, hhit⟩
    · rintro ⟨dx, dy, hdisk, hhit⟩
      exact ⟨(dx, dy), (mem_diskOffsets r (dx, dy)).2 hdisk, hhit⟩
  · intro dx dy
    exact mem_diskOffsets r (dx, dy)

/-! ### Worker message protocol -/

lemma progressValues_cons_progress (v : ℤ) (l : List WorkerMsg) :
    progressValues (.progress v :: l) = v :: progressValues l := rfl

lemma progressValues_append (l1 l2 : List WorkerMsg) :
    progressValues (l1 ++ l2) = progressValues l1 ++ progressValues l2 := by
  simp [progressValues]

lemma progressValues_progressMap {α : Type} (f : α → ℤ) (l : List α) :
    progressValues (l.map fun c => WorkerMsg.progress (f c)) = l.map f := by
  induction l with
  | nil => rfl
  | cons a t ih =>
      rw [List.map_cons, List.map_cons, progressValues_cons_progress, ih]

lemma countP_progressMap {α : Type} (f : α → ℤ) (l : List α) :
    (l.map fun c => WorkerMsg.progress (f c)).countP isCompleteMsg = 0 := by
  induction l with
  | nil => rfl
  | cons a t ih => simp [List.countP_cons, isCompleteMsg, ih]

lemma progressValues_part005 (cb : List (ℚ × ℚ × ℚ)) (removeOk : Bool) :
    progressValues (part005Messages true cb removeOk) =
      5 :: 15 :: cb.map fun c => part005Progress c.1 c.2.1 c.2.2 := by
  have h1 : part005Messages true cb removeOk =
      .progress 5 :: .progress 15 ::
        ((cb.map fun c => .progress (part005Progress c.1 c.2.1 c.2.2)) ++
          (if removeOk then [.complete true] else [.complete false])) := by
    simp [part005Messages]
  rw [h1, progressValues_cons_progress, progressValues_cons_progress,
    progressValues_append, progressValues_progressMap]
  cases removeOk <;> simp [progressValues]

lemma part005Progress_mem (a b j : ℚ) :
    0 ≤ part005Progress a b j ∧ part005Progress a b j ≤ 100 := by
  unfold part005Progress
  constructor
  · have h15 : (15 : ℤ) ≤ min 95 (max 15 (jsRound (15 + a / b * 80 + j))) :=
      le_min (by norm_num) (le_max_left _ _)
    omega
  · have h95 := min_le_left (95 : ℤ) (max 15 (jsRound (15 + a / b * 80 + j)))
    omega

lemma oneTerminalComplete_part005 (fetchOk removeOk : Bool)
    (cb : List (ℚ × ℚ × ℚ)) :
    oneTerminalComplete (part005Messages fetchOk cb removeOk) := by
  cases fetchOk
  · exact ⟨rfl, false, rfl⟩
  · constructor
    · cases removeOk <;>
        simp [part005Messages, completeCount, List.countP_cons, List.countP_append,
          isCompleteMsg, countP_progressMap]
    · refine ⟨removeOk, ?_⟩
      have hsplit : part005Messages true cb removeOk =
          (.progress 5 :: .progress 15 ::
            (cb.map fun c => .progress (part005Progress c.1 c.2.1 c.2.2))) ++
            [.complete removeOk] := by
        cases removeOk <;> simp [part005Messages]
      rw [hsplit, List.getLast?_concat]

/-- C8 (amended): for both worker variants every progress percentage lies in
0..100 and the sequence ends with exactly one terminal complete message; the
plain worker's percentages are additionally non-decreasing (the snapshot
worker's jittered percentages need not be: see the counterexample). -/
theorem worker_progress_bounds_terminal (fetchOk removeOk : Bool)
    (cb : List (ℚ × ℚ × ℚ)) :
    (∀ v ∈ progressValues (workerMessages fetchOk removeOk), 0 ≤ v ∧ v ≤ 100) ∧
    nondecreasingB (progressValues (workerMessages fetchOk removeOk)) = true ∧
    oneTerminalComplete (workerMessages fetchOk removeOk) ∧
    (∀ v ∈ progressValues (part005Messages fetchOk cb removeOk), 0 ≤ v ∧ v ≤ 100) ∧
    oneTerminalComplete (part005Messages fetchOk cb removeOk) := by
  refine ⟨?_, ?_, ?_, ?_, ?_⟩
  · cases fetchOk <;> cases removeOk <;> decide
  · cases fetchOk <;> cases removeOk <;> decide
  · cases fetchOk <;> cases removeOk
    · exact ⟨rfl, false, rfl⟩
    · exact ⟨rfl, false, rfl⟩
    · exact ⟨rfl, false, rfl⟩
    · exact ⟨rfl, true, rfl⟩
  · intro v hv
    cases fetchOk
    · have hv5 : v = 5 := by
        simpa [part005Messages, progressValues] using hv
      omega
    · rw [progressValues_part005] at hv
      simp only [List.mem_cons, List.mem_map] at hv
      rcases hv with rfl | rfl | ⟨c, _, rfl⟩
      · omega
      · omega
      · exact part005Progress_mem c.1 c.2.1 c.2.2
  · exact oneTerminalComplete_part005 fetchOk removeOk cb

/-- C8 counterexample: with jitter values +0.9 and −0.9 (both producible by
`Math.random() * 2 - 1`) around the same model progress, the snapshot worker
emits 56 followed by 54: the progress sequence is not non-decreasing. -/
theorem worker_progress_jitter_counterexample :
    ((-1 : ℚ) ≤ 9 / 10 ∧ (9 : ℚ) / 10 < 1) ∧
    ((-1 : ℚ) ≤ -(9 / 10) ∧ (-(9 / 10) : ℚ) < 1) ∧
    nondecreasingB (progressValues
      (part005Messages true [(1, 2, 9 / 10), (1, 2, -(9 / 10))] true)) = false := by
  refine ⟨⟨by norm_num, by norm_num⟩, ⟨by norm_num, by norm_num⟩, ?_⟩
  have e1 : part005Progress 1 2 (9 / 10) = 56 := by
    unfold part005Progress jsRound
    have hf : Int.floor ((15 : ℚ) + 1 / 2 * 80 + 9 / 10 + 1 / 2) = 56 := by
      rw [Int.floor_eq_iff]
      norm_num
    rw [hf]
    decide
  have e2 : part005Progress 1 2 (-(9 / 10)) = 54 := by
    unfold part005Progress jsRound
    have hf : Int.floor ((15 : ℚ) + 1 / 2 * 80 + -(9 / 10) + 1 / 2) = 54 := by
      rw [Int.floor_eq_iff]
      norm_num
    rw [hf]
    decide
  rw [progressValues_part005]
  simp only [List.map_cons, List.map_nil, e1, e2]
  decide

/-- C8 witness: the amended theorem applied to the plain worker's happy path. -/
theorem worker_progress_bounds_terminal_witness : (0 : ℤ) ≤ 10 ∧ (10 : ℤ) ≤ 100 :=
  (worker_progress_bounds_terminal true true []).1 10 (by decide)

/-! ### Download naming -/

lemma takeWhile_noDot_append (l1 l2 : List Char) :
    (∀ c ∈ l1, c ≠ '.') →
    ((l1 ++ '.' :: l2).takeWhile fun c => c != '.') = l1 := by
  induction l1 with
  | nil =>
      intro _
      simp
  | cons a t ih =>
      intro h
      have ha : (a != '.') = true := by
        have := h a (List.mem_cons_self a t)
        simpa [bne_iff_ne] using this
      rw [List.cons_append, List.takeWhile_cons, if_pos ha,
        ih (fun c hc => h c (List.mem_cons_of_mem a hc))]

lemma takeWhile_noDot_self (l1 : List Char) :
    (∀ c ∈ l1, c ≠ '.') → (l1.takeWhile fun c => c != '.') = l1 := by
  induction l1 with
  | nil =>
      intro _
      rfl
  | cons a t ih =>
      intro h
      have ha : (a != '.') = true := by
        have := h a (List.mem_cons_self a t)
        simpa [bne_iff_ne] using this
      rw [List.takeWhile_cons, if_pos ha,
        ih (fun c hc => h c (List.mem_cons_of_mem a hc))]

/-- C9 (amended): with no known filename the download is the generic
`processed-image.png`; with a known non-empty filename it is the part of the
name before the first dot followed by the literal suffix
`_removeimagebg.png`. -/
theorem download_name_convention :
    downloadName none = "processed-image.png" ∧
    (∀ l1 l2 : List Char, (∀ c ∈ l1, c ≠ '.') →
      downloadName (some (String.mk (l1 ++ '.' :: l2))) =
        String.mk l1 ++ "_removeimagebg.png") ∧
    (∀ l1 : List Char, l1 ≠ [] → (∀ c ∈ l1, c ≠ '.') →
      downloadName (some (String.mk l1)) = String.mk l1 ++ "_removeimagebg.png") := by
  refine ⟨rfl, ?_, ?_⟩
  · intro l1 l2 h
    have hne : String.mk (l1 ++ '.' :: l2) ≠ "" := by
      intro heq
      have h2 : l1 ++ '.' :: l2 = ([] : List Char) := congrArg String.data heq
      simp at h2
    simp only [downloadName]
    rw [if_neg hne]
    have htl : (String.mk (l1 ++ '.' :: l2)).toList = l1 ++ '.' :: l2 := rfl
    rw [htl, takeWhile_noDot_append l1 l2 h]
  · intro l1 hne0 h
    have hne : String.mk l1 ≠ "" := by
      intro heq
      exact hne0 (congrArg String.data heq)
    simp only [downloadName]
    rw [if_neg hne]
    have htl : (String.mk l1).toList = l1 := rfl
    rw [htl, takeWhile_noDot_self l1 h]

/-- C9 counterexample: for the known filename photo.jpg the code produces
photo_removeimagebg.png, which differs from the claimed
basename followed by the suffix removebg. -/
theorem download_name_counterexample :
    downloadName (some "photo.jpg") = "photo_removeimagebg.png" ∧
    "photo_removeimagebg.png" ≠ "photo" ++ "_removebg.png" := by
  constructor
  · decide
  · decide

/-- C9 witness: the amended naming applied to a concrete one-letter stem. -/
theorem download_name_convention_witness :
    downloadName (some (String.mk (['p'] ++ '.' :: ['j']))) =
      String.mk ['p'] ++ "_removeimagebg.png" :=
  download_name_convention.2.1 ['p'] ['j'] (by decide)

/-! ### Witnesses at concrete inputs -/

/-- C1 witness: the stage-order equation at a concrete 1×1 image pair with
every effect disabled and the identity in place of the platform blur. -/
theorem render_fixed_stage_order_witness :
    applyBackgroundEffect (fun _ _ _ s => s)
        ⟨1, 1, fun _ _ => ⟨10, 20, 30, 255⟩⟩ ⟨1, 1, fun _ _ => ⟨10, 20, 30, 255⟩⟩
        ⟨⟨false, none⟩, ⟨false, none⟩, ⟨false, none⟩, ⟨false, none⟩⟩ =
      stagePipeline (fun _ _ _ s => s)
        ⟨1, 1, fun _ _ => ⟨10, 20, 30, 255⟩⟩ ⟨1, 1, fun _ _ => ⟨10, 20, 30, 255⟩⟩
        ⟨⟨false, none⟩, ⟨false, none⟩, ⟨false, none⟩, ⟨false, none⟩⟩ :=
  render_fixed_stage_order _ _ _ _ rfl rfl

set_option maxRecDepth 4000 in
/-- C2 witness: the all-disabled render at pixel (0, 0) of a 1×1 pair. -/
theorem render_all_disabled_checkerboard_witness :
    (applyBackgroundEffect (fun _ _ _ s => s)
        ⟨1, 1, fun _ _ => ⟨10, 20, 30, 255⟩⟩ ⟨1, 1, fun _ _ => ⟨10, 20, 30, 128⟩⟩
        ⟨⟨false, none⟩, ⟨false, none⟩, ⟨false, none⟩, ⟨false, none⟩⟩).data 0 0 =
      compositePixel .sourceOver
        ((⟨1, 1, fun _ _ => ⟨10, 20, 30, 128⟩⟩ : Image).data 0 0)
        (specCheckerPixel 0 0) :=
  render_all_disabled_checkerboard (fun _ _ _ s => s)
    ⟨1, 1, fun _ _ => ⟨10, 20, 30, 255⟩⟩ ⟨1, 1, fun _ _ => ⟨10, 20, 30, 128⟩⟩
    ⟨⟨false, none⟩, ⟨false, none⟩, ⟨false, none⟩, ⟨false, none⟩⟩
    rfl rfl rfl rfl rfl rfl 0 0 (by decide) (by decide)

/-- C3 witness: the offset-disk characterization at radius 1 and offset
(0, 0) for a concrete opaque 1×1 foreground. -/
theorem mask_is_disk_dilation_witness :
    (((0 : ℤ), (0 : ℤ)) ∈ diskOffsets 1 ↔
      (0 : ℤ) * 0 + 0 * 0 ≤ ((1 : ℕ) : ℤ) * ((1 : ℕ) : ℤ)) :=
  (mask_is_disk_dilation ⟨1, 1, fun _ _ => ⟨10, 20, 30, 255⟩⟩
    (by intro x y; exact Nat.le.refl) 1 (by decide) 0 0 (by decide) (by decide)).2 0 0

/-- C4 witness: an opaque foreground pixel survives the border pass at a
concrete 1×1 image pair with the border effect enabled. -/
theorem border_never_covers_subject_witness :
    (applyBackgroundEffect (fun _ _ _ s => s)
        ⟨1, 1, fun _ _ => ⟨10, 20, 30, 255⟩⟩ ⟨1, 1, fun _ _ => ⟨10, 20, 30, 255⟩⟩
        ⟨⟨false, none⟩, ⟨true, none⟩, ⟨false, none⟩, ⟨false, none⟩⟩).data 0 0 =
      (⟨1, 1, fun _ _ => ⟨10, 20, 30, 255⟩⟩ : Image).data 0 0 :=
  border_never_covers_subject _ _ _ _ rfl rfl rfl 0 0 (by decide) (by decide) rfl

end RemoveImageBg
